import Mathlib

set_option linter.unusedSectionVars false

/-!
Verification of the `$bucketAuto` pipeline stage and the `$sort` stage of the
mingo in-memory aggregation engine (src/src/operators/pipeline/bucketAuto.ts).

Documents are an abstract type `α`; the composite
`computeValue(o, groupByExpr)` (memoized in the source, hence a pure function
of the document) is abstracted as a key function `keyFn : α → Option K` into a
linearly ordered key type `K`, with `none` standing for a nil key (`null` or
missing, the `isNil` test of the source; the source normalizes both to `null`
before using them).
-/

namespace Mingo

variable {K : Type} [LinearOrder K] [DecidableEq K]
variable {α : Type} [DecidableEq α]

/-- Order on keys used when `$bucketAuto` sorts its input: a nil key (`none`)
sorts below every real key, and real keys compare in `K`. -/
def keyLE [LinearOrder K] : Option K → Option K → Prop
  | none, _ => True
  | some _, none => False
  | some a, some b => a ≤ b

instance : DecidableRel (keyLE (K := K)) := fun u v =>
  match u, v with
  | none, _ => isTrue True.intro
  | some _, none => isFalse fun h => h
  | some a, some b => inferInstanceAs (Decidable (a ≤ b))

theorem keyLE_refl (u : Option K) : keyLE u u := by
  cases u with
  | none => trivial
  | some a => exact le_refl a

theorem keyLE_trans {u v w : Option K} (h₁ : keyLE u v) (h₂ : keyLE v w) : keyLE u w := by
  cases u with
  | none => trivial
  | some a =>
    cases v with
    | none => exact absurd h₁ (fun h => h)
    | some b =>
      cases w with
      | none => exact absurd h₂ (fun h => h)
      | some c => exact le_trans h₁ h₂

theorem keyLE_total (u v : Option K) : keyLE u v ∨ keyLE v u := by
  cases u with
  | none => exact Or.inl trivial
  | some a =>
    cases v with
    | none => exact Or.inr trivial
    | some b => exact le_total a b

theorem keyLE_antisymm {u v : Option K} (h₁ : keyLE u v) (h₂ : keyLE v u) : u = v := by
  cases u with
  | none =>
    cases v with
    | none => rfl
    | some b => exact absurd h₂ (fun h => h)
  | some a =>
    cases v with
    | none => exact absurd h₁ (fun h => h)
    | some b => exact congrArg some (le_antisymm h₁ h₂)

/-- Order on documents induced by their groupBy key, the comparison used by
`util.sortBy` in `$bucketAuto` (line 38 of bucketAuto.ts). -/
def docLE (keyFn : α → Option K) (a b : α) : Prop :=
  keyLE (keyFn a) (keyFn b)

instance (keyFn : α → Option K) : DecidableRel (docLE keyFn) := fun a b =>
  inferInstanceAs (Decidable (keyLE (keyFn a) (keyFn b)))

instance (keyFn : α → Option K) : IsTotal α (docLE keyFn) :=
  ⟨fun a b => keyLE_total (keyFn a) (keyFn b)⟩

instance (keyFn : α → Option K) : IsTrans α (docLE keyFn) :=
  ⟨fun _ _ _ h₁ h₂ => keyLE_trans h₁ h₂⟩

/-- Modelled from the spec: `util.sortBy` is not among the sources (only its
caller `$bucketAuto` is).  Per the spec, `$sort`/`sortBy` performs a stable
sort and `null`/`Missing` keys sort at the low end.  Modelled as a stable
insertion sort under `docLE` (whose `none` case puts nil keys lowest). -/
def sortBy (keyFn : α → Option K) (coll : List α) : List α :=
  List.insertionSort (docLE keyFn) coll

/-- The `remaining` array of `$bucketAuto` (lines 36-47): all documents of the
collection whose groupBy key is nil, in collection order. -/
def remaining (keyFn : α → Option K) (coll : List α) : List α :=
  coll.filter (fun b => keyFn b = none)

/-- The `grouped[key]` array of `$bucketAuto` (lines 35-47): all documents of
the collection whose groupBy key equals `key`, in collection order. -/
def grouped (keyFn : α → Option K) (coll : List α) (k : K) : List α :=
  coll.filter (fun b => keyFn b = some k)

/-- `Math.max(1, Math.round(coll.length / bucketCount))` (line 33), with
`Math.round` (round half up) of the exact rational `len / n` computed as
`⌊(2 * len + n) / (2 * n)⌋`. -/
def approxBucketSize (len n : Nat) : Nat :=
  max 1 ((2 * len + n) / (2 * n))

/-- The inner loop of `$bucketAuto` (lines 56-74).  `rest` is the cursor
suffix `sorted.slice(index)`.  Up to `approxBucketSize` times: read the key of
the document at the cursor, append the whole group of documents for that key
(`remaining` for a nil key, `grouped[key]` otherwise) to the bucket items, and
advance the cursor past that many documents (`index += ...`, line 65).
Returns the bucket items and the cursor suffix where the loop stopped. -/
def fillBucket (keyFn : α → Option K) (coll : List α) : Nat → List α → List α × List α
  | 0, rest => ([], rest)
  | _ + 1, [] => ([], [])
  | j + 1, a :: rest =>
    let g : List α :=
      match keyFn a with
      | none => remaining keyFn coll
      | some k => grouped keyFn coll k
    let next := fillBucket keyFn coll j ((a :: rest).drop g.length)
    (g ++ next.1, next.2)

/-- The outer loop of `$bucketAuto` (lines 52-82), with `fuel = bucketCount - i`:
while bucket slots remain (`i < bucketCount`) and unconsumed sorted documents
remain (`index < len`), record the bucket's `min` boundary — the key at the
cursor, nil normalized to `none` (lines 57-59, 68) — and fill the bucket; the
last slot (`i == bucketCount - 1`, reached when `fuel = 1`) additionally
absorbs the unconsumed tail `sorted.slice(index)` (lines 77-79).  Produces the
`(min, bucketItems)` pair of each emitted bucket, in emission order. -/
def bucketLoop (keyFn : α → Option K) (coll : List α) (sz : Nat) :
    Nat → List α → List (Option K × List α)
  | 0, _ => []
  | _ + 1, [] => []
  | f + 1, a :: rest =>
    let fb := fillBucket keyFn coll sz (a :: rest)
    if f = 0 then [(keyFn a, fb.1 ++ fb.2)]
    else (keyFn a, fb.1) :: bucketLoop keyFn coll sz f fb.2

/-- One output document of `$bucketAuto`: the `_id` boundaries `{min, max}`
and the list of input documents accumulated into the bucket (the
`bucketItems` handed to the `output` accumulators, line 81). -/
structure AutoBucket (α K : Type) where
  min : Option K
  max : Option K
  items : List α
deriving DecidableEq

/-- The `max` boundary assignments of `$bucketAuto`: while bucket `i + 1` is
being filled, `result[i]._id.max` is set to bucket `i + 1`'s `min`
(lines 70-73), and after the loop the final bucket's `max` is set to the key
of the last sorted document (lines 84-86, here `lastKey`). -/
def chainMax (lastKey : Option K) : List (Option K × List α) → List (AutoBucket α K)
  | [] => []
  | [(mn, its)] => [⟨mn, lastKey, its⟩]
  | (mn, its) :: b :: bs => ⟨mn, b.1, its⟩ :: chainMax lastKey (b :: bs)

/-- The key written into the final bucket's `max`:
`computeValue(sorted[sorted.length - 1], groupByExpr)` (line 85).  The
source only reads it when at least one bucket was emitted, which forces
`sorted` nonempty; the `none` fallback for an empty list is never used. -/
def lastKeyOf (keyFn : α → Option K) (sorted : List α) : Option K :=
  match sorted.getLast? with
  | some a => keyFn a
  | none => none

/-- The body of the `$bucketAuto` transform (lines 32-88) for a valid bucket
count `n`: sort the collection by groupBy key, run the bucket loop, and chain
the `max` boundaries. -/
def bucketAutoRun (keyFn : α → Option K) (n : Nat) (coll : List α) :
    List (AutoBucket α K) :=
  chainMax (lastKeyOf keyFn (sortBy keyFn coll))
    (bucketLoop keyFn coll (approxBucketSize coll.length n) n (sortBy keyFn coll))

/-- `$bucketAuto` (lines 23-89).  The `assert` on line 28 raises unless
`expr.buckets > 0`; numeric bucket counts are embedded as `Int`. -/
def bucketAuto (keyFn : α → Option K) (buckets : Int) (coll : List α) :
    Except String (List (AutoBucket α K)) :=
  if 0 < buckets then
    Except.ok (bucketAutoRun keyFn buckets.toNat coll)
  else
    Except.error
      ("The $bucketAuto 'buckets' field must be greater than 0, but found: " ++ toString buckets)

/-- Modelled from the spec: the default `output` accumulator
`{ count: { $sum: 1 } }` (line 24).  `computeValue` is not among the sources;
per the spec the default output sums `1` per accumulated document, i.e. the
number of items in the bucket. -/
def defaultCount (b : AutoBucket α K) : Nat :=
  b.items.length

/-! ### Stability of the sort -/

/-- Stability of the stable sort, stated through `filter`: restricting the
sorted output to a predicate `p` whose members are pairwise related under the
sort order yields the same list as restricting the input, i.e. an equivalence
class of keys keeps its input order. -/
theorem filter_insertionSort_class (r : α → α → Prop) [DecidableRel r] [IsTotal α r]
    [IsTrans α r] (p : α → Bool) (hp : ∀ x y, p x = true → p y = true → r x y)
    (l : List α) : (List.insertionSort r l).filter p = l.filter p := by
  have hpw : (l.filter p).Pairwise r :=
    List.pairwise_of_forall_mem_list fun a ha b hb =>
      hp a b (List.of_mem_filter ha) (List.of_mem_filter hb)
  have hsub : List.Sublist (l.filter p) (List.insertionSort r l) :=
    List.sublist_insertionSort hpw (List.filter_sublist l)
  have hsub2 : List.Sublist (l.filter p) ((List.insertionSort r l).filter p) := by
    have h := hsub.filter p
    rwa [List.filter_eq_self.mpr (fun a ha => List.of_mem_filter ha)] at h
  have hlen : ((List.insertionSort r l).filter p).length = (l.filter p).length :=
    ((List.perm_insertionSort r l).filter p).length_eq
  exact (hsub2.eq_of_length hlen.symm).symm

/-! ### The key-class invariant on the cursor suffix -/

/-- Invariant maintained on the cursor suffix `rest` of the sorted collection:
for each document in `rest`, the whole group `grouped[key]`/`remaining` of
collection documents bearing its key sits inside `rest`.  This is what makes
`index += grouped[key].length` (line 65) advance exactly past that group. -/
def Aligned (keyFn : α → Option K) (coll rest : List α) : Prop :=
  ∀ a ∈ rest,
    rest.filter (fun b => keyFn b = keyFn a) = coll.filter (fun b => keyFn b = keyFn a)

theorem sorted_sortBy (keyFn : α → Option K) (coll : List α) :
    (sortBy keyFn coll).Pairwise (docLE keyFn) :=
  List.sorted_insertionSort (docLE keyFn) coll

theorem perm_sortBy (keyFn : α → Option K) (coll : List α) :
    List.Perm (sortBy keyFn coll) coll :=
  List.perm_insertionSort (docLE keyFn) coll

theorem aligned_sortBy (keyFn : α → Option K) (coll : List α) :
    Aligned keyFn coll (sortBy keyFn coll) := by
  intro a _
  refine filter_insertionSort_class (docLE keyFn) _ (fun x y hx hy => ?_) coll
  have hx' : keyFn x = keyFn a := of_decide_eq_true hx
  have hy' : keyFn y = keyFn a := of_decide_eq_true hy
  show keyLE (keyFn x) (keyFn y)
  rw [hx', hy']
  exact keyLE_refl _

/-- In a sorted cursor, every document surviving `dropWhile (key = key a)`
bears a key different from the head's. -/
theorem dropWhile_key_ne_aux (keyFn : α → Option K) (a : α) :
    ∀ t : List α, (a :: t).Pairwise (docLE keyFn) →
      ∀ y ∈ t.dropWhile (fun b => keyFn b = keyFn a), keyFn y ≠ keyFn a
  | [], _, y, hy => by simp [List.dropWhile] at hy
  | b :: s, hpw, y, hy => by
    by_cases hb : keyFn b = keyFn a
    · rw [List.dropWhile_cons_of_pos (p := fun b => decide (keyFn b = keyFn a))
        (decide_eq_true hb)] at hy
      have hsub : List.Sublist (a :: s) (a :: b :: s) :=
        List.Sublist.cons₂ a (List.sublist_cons_self b s)
      exact dropWhile_key_ne_aux keyFn a s (hpw.sublist hsub) y hy
    · rw [List.dropWhile_cons_of_neg (p := fun b => decide (keyFn b = keyFn a))
        (by simpa using hb)] at hy
      rcases List.mem_cons.mp hy with rfl | hys
      · exact hb
      · intro hya
        have hab : docLE keyFn a b := List.rel_of_pairwise_cons hpw (List.mem_cons_self b s)
        have hby : docLE keyFn b y :=
          List.rel_of_pairwise_cons (List.pairwise_cons.mp hpw).2 hys
        rw [docLE, hya] at hby
        exact hb (keyLE_antisymm hby hab)

theorem dropWhile_key_ne (keyFn : α → Option K) (a : α) (t : List α)
    (hpw : (a :: t).Pairwise (docLE keyFn)) :
    ∀ y ∈ (a :: t).dropWhile (fun b => keyFn b = keyFn a), keyFn y ≠ keyFn a := by
  rw [List.dropWhile_cons_of_pos (p := fun b => decide (keyFn b = keyFn a))
    (decide_eq_true rfl)]
  exact dropWhile_key_ne_aux keyFn a t hpw

/-- On a sorted cursor, the full group of documents bearing the head's key is
exactly the maximal run of that key at the front. -/
theorem filter_head_key_eq_takeWhile (keyFn : α → Option K) (a : α) (t : List α)
    (hpw : (a :: t).Pairwise (docLE keyFn)) :
    (a :: t).filter (fun b => keyFn b = keyFn a)
      = (a :: t).takeWhile (fun b => keyFn b = keyFn a) := by
  conv_lhs =>
    rw [← List.takeWhile_append_dropWhile
      (p := fun b => decide (keyFn b = keyFn a)) (l := a :: t)]
  rw [List.filter_append,
    List.filter_eq_self.mpr
      (fun x hx => List.mem_takeWhile_imp (p := fun b => decide (keyFn b = keyFn a)) hx),
    List.filter_eq_nil_iff.mpr
      (fun y hy => by simpa using dropWhile_key_ne keyFn a t hpw y hy),
    List.append_nil]

theorem aligned_dropWhile (keyFn : α → Option K) (coll : List α) (a : α) (t : List α)
    (hpw : (a :: t).Pairwise (docLE keyFn)) (ha : Aligned keyFn coll (a :: t)) :
    Aligned keyFn coll ((a :: t).dropWhile (fun b => keyFn b = keyFn a)) := by
  intro y hy
  have hyne : keyFn y ≠ keyFn a := dropWhile_key_ne keyFn a t hpw y hy
  have hymem : y ∈ a :: t := (List.dropWhile_sublist _).subset hy
  have h1 := ha y hymem
  have hsplit : (a :: t).filter (fun b => keyFn b = keyFn y)
      = ((a :: t).takeWhile (fun b => keyFn b = keyFn a)).filter
          (fun b => keyFn b = keyFn y)
        ++ ((a :: t).dropWhile (fun b => keyFn b = keyFn a)).filter
          (fun b => keyFn b = keyFn y) := by
    conv_lhs =>
      rw [← List.takeWhile_append_dropWhile
        (p := fun b => decide (keyFn b = keyFn a)) (l := a :: t)]
    rw [List.filter_append]
  have htw : ((a :: t).takeWhile (fun b => keyFn b = keyFn a)).filter
      (fun b => keyFn b = keyFn y) = [] := by
    refine List.filter_eq_nil_iff.mpr (fun x hx => ?_)
    have hxa : keyFn x = keyFn a := of_decide_eq_true
      (List.mem_takeWhile_imp (p := fun b => decide (keyFn b = keyFn a)) hx)
    simp only [hxa, decide_eq_true_eq]
    exact fun h => hyne h.symm
  rw [hsplit, htw, List.nil_append] at h1
  exact h1

/-! ### The bucket loop consumes whole key-groups -/

/-- The chunk consumption of the inner loop in its direct form: from the
front of the (sorted) cursor, take up to `sz` whole maximal equal-key runs. -/
def takeGroups (keyFn : α → Option K) : Nat → List α → List α × List α
  | 0, rest => ([], rest)
  | _ + 1, [] => ([], [])
  | j + 1, a :: rest =>
    let g := (a :: rest).takeWhile (fun b => keyFn b = keyFn a)
    let next := takeGroups keyFn j ((a :: rest).dropWhile (fun b => keyFn b = keyFn a))
    (g ++ next.1, next.2)

theorem takeGroups_append (keyFn : α → Option K) :
    ∀ (sz : Nat) (rest : List α),
      (takeGroups keyFn sz rest).1 ++ (takeGroups keyFn sz rest).2 = rest
  | 0, _ => rfl
  | _ + 1, [] => rfl
  | j + 1, a :: t => by
    simp only [takeGroups, List.append_assoc]
    rw [takeGroups_append keyFn j ((a :: t).dropWhile (fun b => keyFn b = keyFn a))]
    exact List.takeWhile_append_dropWhile ..

theorem takeGroups_fst_ne_nil (keyFn : α → Option K) (j : Nat) (a : α) (t : List α) :
    (takeGroups keyFn (j + 1) (a :: t)).1 ≠ [] := by
  simp only [takeGroups]
  rw [List.takeWhile_cons_of_pos (p := fun b => decide (keyFn b = keyFn a))
    (decide_eq_true rfl)]
  simp

theorem takeGroups_snd_invariant (keyFn : α → Option K) (coll : List α) :
    ∀ (sz : Nat) (rest : List α), rest.Pairwise (docLE keyFn) →
      Aligned keyFn coll rest →
      ((takeGroups keyFn sz rest).2.Pairwise (docLE keyFn)
        ∧ Aligned keyFn coll (takeGroups keyFn sz rest).2)
  | 0, rest, hpw, ha => ⟨hpw, ha⟩
  | _ + 1, [], _, ha => ⟨List.Pairwise.nil, ha⟩
  | j + 1, a :: t, hpw, ha => by
    simp only [takeGroups]
    exact takeGroups_snd_invariant keyFn coll j _
      (hpw.sublist (List.dropWhile_sublist _))
      (aligned_dropWhile keyFn coll a t hpw ha)

/-- Unfolding of `fillBucket` on a nonempty cursor: both the nil branch
(`remaining`) and the keyed branch (`grouped[key]`) append the filter of the
collection on the head's key. -/
theorem fillBucket_cons (keyFn : α → Option K) (coll : List α) (j : Nat) (a : α)
    (t : List α) :
    fillBucket keyFn coll (j + 1) (a :: t)
      = ((coll.filter (fun b => keyFn b = keyFn a))
            ++ (fillBucket keyFn coll j
                ((a :: t).drop (coll.filter (fun b => keyFn b = keyFn a)).length)).1,
         (fillBucket keyFn coll j
            ((a :: t).drop (coll.filter (fun b => keyFn b = keyFn a)).length)).2) := by
  cases hk : keyFn a with
  | none => simp only [fillBucket, hk, remaining]
  | some k => simp only [fillBucket, hk, grouped]

theorem drop_length_takeWhile (p : α → Bool) (l : List α) :
    l.drop (l.takeWhile p).length = l.dropWhile p := by
  have h := @List.drop_left' _ (l.takeWhile p) (l.dropWhile p) (l.takeWhile p).length rfl
  rwa [List.takeWhile_append_dropWhile] at h

/-- On a sorted, aligned cursor the source's inner loop (which appends
`grouped[key]`/`remaining` and jumps the index) is exactly whole-run
consumption from the front of the cursor. -/
theorem fillBucket_eq_takeGroups (keyFn : α → Option K) (coll : List α) :
    ∀ (sz : Nat) (rest : List α), rest.Pairwise (docLE keyFn) →
      Aligned keyFn coll rest →
      fillBucket keyFn coll sz rest = takeGroups keyFn sz rest
  | 0, _, _, _ => rfl
  | _ + 1, [], _, _ => rfl
  | j + 1, a :: t, hpw, ha => by
    have hg : coll.filter (fun b => keyFn b = keyFn a)
        = (a :: t).takeWhile (fun b => keyFn b = keyFn a) := by
      rw [← ha a (List.mem_cons_self a t)]
      exact filter_head_key_eq_takeWhile keyFn a t hpw
    rw [fillBucket_cons, hg, drop_length_takeWhile]
    have hrec := fillBucket_eq_takeGroups keyFn coll j
      ((a :: t).dropWhile (fun b => keyFn b = keyFn a))
      (hpw.sublist (List.dropWhile_sublist _))
      (aligned_dropWhile keyFn coll a t hpw ha)
    simp only [takeGroups, hrec]

/-- A key present on the far side of an aligned split never occurs on the
near side. -/
theorem key_disjoint_of_aligned (keyFn : α → Option K) (coll l₁ l₂ : List α)
    (ha : Aligned keyFn coll (l₁ ++ l₂)) (ha₂ : Aligned keyFn coll l₂) :
    ∀ x ∈ l₁, ∀ y ∈ l₂, keyFn x ≠ keyFn y := by
  intro x hx y hy heq
  have h1 := ha y (List.mem_append_right l₁ hy)
  have h2 := ha₂ y hy
  rw [List.filter_append] at h1
  have h3 : (l₁.filter (fun b => keyFn b = keyFn y)).length
      + (l₂.filter (fun b => keyFn b = keyFn y)).length
      = (l₂.filter (fun b => keyFn b = keyFn y)).length := by
    rw [← List.length_append, h1, h2]
  have h4 : l₁.filter (fun b => keyFn b = keyFn y) = [] :=
    List.eq_nil_of_length_eq_zero (by omega)
  have hx' : x ∈ l₁.filter (fun b => keyFn b = keyFn y) :=
    List.mem_filter.mpr ⟨hx, decide_eq_true heq⟩
  rw [h4] at hx'
  exact absurd hx' (List.not_mem_nil x)

/-- Master invariant of the outer bucket loop on a sorted, aligned cursor:
the emitted buckets' item lists concatenate back to the cursor (no document
dropped or duplicated), at most `fuel` buckets are emitted, no bucket is
empty, and no key occurs in two distinct buckets. -/
theorem bucketLoop_spec (keyFn : α → Option K) (coll : List α) {sz : Nat}
    (hsz : 1 ≤ sz) :
    ∀ (fuel : Nat) (rest : List α), 1 ≤ fuel → rest.Pairwise (docLE keyFn) →
      Aligned keyFn coll rest →
      (((bucketLoop keyFn coll sz fuel rest).map Prod.snd).flatten = rest
        ∧ (bucketLoop keyFn coll sz fuel rest).length ≤ fuel
        ∧ (∀ p ∈ bucketLoop keyFn coll sz fuel rest, p.2 ≠ [])
        ∧ (bucketLoop keyFn coll sz fuel rest).Pairwise
            (fun p q => ∀ x ∈ p.2, ∀ y ∈ q.2, keyFn x ≠ keyFn y))
  | 0, _, hfuel, _, _ => absurd hfuel (by omega)
  | _ + 1, [], _, _, _ => by simp [bucketLoop]
  | 1, a :: t, _, hpw, ha => by
    obtain ⟨j, rfl⟩ : ∃ j, sz = j + 1 := ⟨sz - 1, by omega⟩
    have hfb : fillBucket keyFn coll (j + 1) (a :: t) = takeGroups keyFn (j + 1) (a :: t) :=
      fillBucket_eq_takeGroups keyFn coll (j + 1) (a :: t) hpw ha
    have happ := takeGroups_append keyFn (j + 1) (a :: t)
    have hunfold : bucketLoop keyFn coll (j + 1) 1 (a :: t)
        = [(keyFn a, (takeGroups keyFn (j + 1) (a :: t)).1
              ++ (takeGroups keyFn (j + 1) (a :: t)).2)] := by
      show [(keyFn a, (fillBucket keyFn coll (j + 1) (a :: t)).1
              ++ (fillBucket keyFn coll (j + 1) (a :: t)).2)] = _
      rw [hfb]
    rw [hunfold]
    refine ⟨by simpa using happ, by simp, ?_, List.pairwise_singleton ..⟩
    intro p hp
    rcases List.mem_singleton.mp hp with rfl
    simp only [ne_eq]
    intro hnil
    rw [hnil] at happ
    exact List.cons_ne_nil a t happ.symm
  | f + 2, a :: t, _, hpw, ha => by
    obtain ⟨j, rfl⟩ : ∃ j, sz = j + 1 := ⟨sz - 1, by omega⟩
    have hfb : fillBucket keyFn coll (j + 1) (a :: t) = takeGroups keyFn (j + 1) (a :: t) :=
      fillBucket_eq_takeGroups keyFn coll (j + 1) (a :: t) hpw ha
    have happ := takeGroups_append keyFn (j + 1) (a :: t)
    have hunfold : bucketLoop keyFn coll (j + 1) (f + 2) (a :: t)
        = (keyFn a, (takeGroups keyFn (j + 1) (a :: t)).1)
            :: bucketLoop keyFn coll (j + 1) (f + 1)
                (takeGroups keyFn (j + 1) (a :: t)).2 := by
      show (keyFn a, (fillBucket keyFn coll (j + 1) (a :: t)).1)
          :: bucketLoop keyFn coll (j + 1) (f + 1)
              (fillBucket keyFn coll (j + 1) (a :: t)).2 = _
      rw [hfb]
    have hinv := takeGroups_snd_invariant keyFn coll (j + 1) (a :: t) hpw ha
    obtain ⟨ihjoin, ihlen, ihne, ihpw⟩ :=
      bucketLoop_spec keyFn coll hsz (f + 1) (takeGroups keyFn (j + 1) (a :: t)).2
        (by omega) hinv.1 hinv.2
    rw [hunfold]
    refine ⟨?_, ?_, ?_, ?_⟩
    · simp only [List.map_cons, List.flatten_cons]
      rw [ihjoin, happ]
    · simp only [List.length_cons]
      omega
    · intro p hp
      rcases List.mem_cons.mp hp with rfl | hp'
      · exact takeGroups_fst_ne_nil keyFn j a t
      · exact ihne p hp'
    · refine List.pairwise_cons.mpr ⟨?_, ihpw⟩
      intro q hq x hx y hy
      have hyrest : y ∈ (takeGroups keyFn (j + 1) (a :: t)).2 := by
        rw [← ihjoin]
        exact List.mem_flatten.mpr ⟨q.2, List.mem_map_of_mem Prod.snd hq, hy⟩
      exact key_disjoint_of_aligned keyFn coll
        (takeGroups keyFn (j + 1) (a :: t)).1 (takeGroups keyFn (j + 1) (a :: t)).2
        (by rw [happ]; exact ha) hinv.2 x hx y hyrest

/-! ### Boundary chaining -/

theorem chainMax_map_items (lastKey : Option K) :
    ∀ ps : List (Option K × List α),
      (chainMax (α := α) lastKey ps).map AutoBucket.items = ps.map Prod.snd
  | [] => rfl
  | [(_, _)] => rfl
  | (mn, its) :: b :: bs => by
    show AutoBucket.items ⟨mn, b.1, its⟩ :: (chainMax lastKey (b :: bs)).map AutoBucket.items
        = its :: (b :: bs).map Prod.snd
    rw [chainMax_map_items lastKey (b :: bs)]

theorem chainMax_length (lastKey : Option K) (ps : List (Option K × List α)) :
    (chainMax (α := α) lastKey ps).length = ps.length := by
  have h := congrArg List.length (chainMax_map_items lastKey ps)
  simpa using h

theorem chainMax_cons (lastKey : Option K) (p : Option K × List α)
    (ps : List (Option K × List α)) :
    ∃ b₀ : AutoBucket α K,
      chainMax lastKey (p :: ps) = b₀ :: chainMax lastKey ps
        ∧ b₀.items = p.2 ∧ b₀.min = p.1 := by
  obtain ⟨mn, its⟩ := p
  cases ps with
  | nil => exact ⟨⟨mn, lastKey, its⟩, rfl, rfl, rfl⟩
  | cons q qs => exact ⟨⟨mn, q.1, its⟩, rfl, rfl, rfl⟩

theorem chainMax_head_min (lastKey : Option K) (q : Option K × List α)
    (qs : List (Option K × List α)) :
    ∀ c ∈ (chainMax (α := α) lastKey (q :: qs)).head?, c.min = q.1 := by
  obtain ⟨mn, its⟩ := q
  cases qs with
  | nil =>
    intro c hc
    rw [show (chainMax (α := α) lastKey [(mn, its)]).head? = some ⟨mn, lastKey, its⟩ from rfl]
      at hc
    have hceq : (⟨mn, lastKey, its⟩ : AutoBucket α K) = c := by simpa using hc
    rw [← hceq]
  | cons r rs =>
    intro c hc
    rw [show (chainMax lastKey ((mn, its) :: r :: rs)).head? = some ⟨mn, r.1, its⟩ from rfl]
      at hc
    have hceq : (⟨mn, r.1, its⟩ : AutoBucket α K) = c := by simpa using hc
    rw [← hceq]

/-- Adjacent boundary chaining: in the emitted bucket list, each bucket's
`max` is the next bucket's `min`, by the in-loop assignment of lines 70-73. -/
theorem chainMax_chain (lastKey : Option K) :
    ∀ ps : List (Option K × List α),
      List.Chain' (fun b c : AutoBucket α K => c.min = b.max) (chainMax lastKey ps)
  | [] => List.chain'_nil
  | [(_, _)] => List.chain'_singleton _
  | (mn, its) :: q :: qs => by
    rw [show chainMax lastKey ((mn, its) :: q :: qs)
        = ⟨mn, q.1, its⟩ :: chainMax lastKey (q :: qs) from rfl]
    refine List.chain'_cons'.mpr ⟨?_, chainMax_chain lastKey (q :: qs)⟩
    intro c hc
    rw [chainMax_head_min lastKey q qs c hc]

theorem chainMax_ne_nil (lastKey : Option K) (q : Option K × List α)
    (qs : List (Option K × List α)) : chainMax (α := α) lastKey (q :: qs) ≠ [] := by
  obtain ⟨mn, its⟩ := q
  cases qs with
  | nil => exact List.cons_ne_nil _ _
  | cons r rs => exact List.cons_ne_nil _ _

/-- The final bucket's `max` is the fixed-up `lastKey` of lines 84-86. -/
theorem chainMax_getLast_max (lastKey : Option K) :
    ∀ ps : List (Option K × List α),
      ∀ b ∈ (chainMax (α := α) lastKey ps).getLast?, b.max = lastKey
  | [] => by intro b hb; simp [chainMax] at hb
  | [(mn, its)] => by
    intro b hb
    rw [show (chainMax (α := α) lastKey [(mn, its)]).getLast?
        = some ⟨mn, lastKey, its⟩ from rfl] at hb
    have hbeq : (⟨mn, lastKey, its⟩ : AutoBucket α K) = b := by simpa using hb
    rw [← hbeq]
  | (mn, its) :: q :: qs => by
    intro b hb
    rw [show chainMax lastKey ((mn, its) :: q :: qs)
        = ⟨mn, q.1, its⟩ :: chainMax lastKey (q :: qs) from rfl] at hb
    obtain ⟨c, cs, hcs⟩ : ∃ c cs, chainMax (α := α) lastKey (q :: qs) = c :: cs := by
      obtain ⟨mq, iq⟩ := q
      cases qs with
      | nil => exact ⟨_, _, rfl⟩
      | cons r rs => exact ⟨_, _, rfl⟩
    rw [hcs, List.getLast?_cons_cons, ← hcs] at hb
    exact chainMax_getLast_max lastKey (q :: qs) b hb

/-! ### The greatest observed key -/

/-- The key of the last sorted document is a key of the input and dominates
every key of the input under `keyLE`. -/
theorem lastKeyOf_spec (keyFn : α → Option K) (coll : List α) (h : coll ≠ []) :
    lastKeyOf keyFn (sortBy keyFn coll) ∈ coll.map keyFn
      ∧ ∀ x ∈ coll, keyLE (keyFn x) (lastKeyOf keyFn (sortBy keyFn coll)) := by
  have hperm := perm_sortBy keyFn coll
  have hne : sortBy keyFn coll ≠ [] := by
    intro h0
    rw [h0] at hperm
    exact h hperm.symm.eq_nil
  have hget : (sortBy keyFn coll).getLast? = some ((sortBy keyFn coll).getLast hne) :=
    List.getLast?_eq_getLast_of_ne_nil hne
  have hlk : lastKeyOf keyFn (sortBy keyFn coll)
      = keyFn ((sortBy keyFn coll).getLast hne) := by
    unfold lastKeyOf
    rw [hget]
  have hmem : (sortBy keyFn coll).getLast hne ∈ sortBy keyFn coll :=
    List.getLast_mem hne
  constructor
  · rw [hlk]
    exact List.mem_map_of_mem keyFn (hperm.mem_iff.mp hmem)
  · intro x hx
    have hxs : x ∈ sortBy keyFn coll := hperm.mem_iff.mpr hx
    have hsplit := List.dropLast_append_getLast hne
    have hpw : ((sortBy keyFn coll).dropLast
        ++ [(sortBy keyFn coll).getLast hne]).Pairwise (docLE keyFn) := by
      rw [hsplit]
      exact sorted_sortBy keyFn coll
    rw [← hsplit] at hxs
    rcases List.mem_append.mp hxs with hx1 | hx2
    · have hrel := (List.pairwise_append.mp hpw).2.2
      rw [hlk]
      exact hrel x hx1 _ (List.mem_singleton_self _)
    · rw [hlk, show x = (sortBy keyFn coll).getLast hne from List.mem_singleton.mp hx2]
      exact keyLE_refl _

/-! ### Inversion of the bucket-count validation -/

theorem bucketAuto_ok_inv {keyFn : α → Option K} {N : Int} {coll : List α}
    {bs : List (AutoBucket α K)} (hok : bucketAuto keyFn N coll = Except.ok bs) :
    0 < N ∧ bs = bucketAutoRun keyFn N.toNat coll := by
  by_cases h : 0 < N
  · refine ⟨h, ?_⟩
    unfold bucketAuto at hok
    rw [if_pos h] at hok
    exact (Except.ok.injEq _ _ ▸ hok).symm
  · unfold bucketAuto at hok
    rw [if_neg h] at hok
    exact absurd hok (by simp)

theorem chainMax_pairwise_items {R : List α → List α → Prop} (lastKey : Option K) :
    ∀ ps : List (Option K × List α), ps.Pairwise (fun p q => R p.2 q.2) →
      (chainMax (α := α) lastKey ps).Pairwise (fun b c => R b.items c.items)
  | [], _ => List.Pairwise.nil
  | [(_, _)], _ => List.pairwise_singleton ..
  | (mn, its) :: q :: qs, hp => by
    rw [show chainMax lastKey ((mn, its) :: q :: qs)
        = ⟨mn, q.1, its⟩ :: chainMax lastKey (q :: qs) from rfl]
    obtain ⟨hhead, htail⟩ := List.pairwise_cons.mp hp
    refine List.pairwise_cons.mpr ⟨?_, chainMax_pairwise_items lastKey (q :: qs) htail⟩
    intro c hc
    have hmem : c.items ∈ (q :: qs).map Prod.snd := by
      rw [← chainMax_map_items lastKey (q :: qs)]
      exact List.mem_map_of_mem AutoBucket.items hc
    obtain ⟨p', hp', hpeq⟩ := List.mem_map.mp hmem
    show R its c.items
    rw [← hpeq]
    exact hhead p' hp'

theorem bucketAutoRun_nil (keyFn : α → Option K) (n : Nat) :
    bucketAutoRun keyFn n ([] : List α) = [] := by
  unfold bucketAutoRun
  rw [show sortBy keyFn ([] : List α) = [] from rfl]
  cases n with
  | zero => rfl
  | succ f => rfl

/-- Bundle of facts about `bucketAutoRun` for a positive bucket count:
the buckets' item lists flatten back to the sorted input, at most `n` buckets
are emitted, none is empty, and no key spans two buckets. -/
theorem bucketAutoRun_spec (keyFn : α → Option K) (n : Nat) (coll : List α)
    (hn : 1 ≤ n) :
    ((bucketAutoRun keyFn n coll).map AutoBucket.items).flatten = sortBy keyFn coll
      ∧ (bucketAutoRun keyFn n coll).length ≤ n
      ∧ (∀ b ∈ bucketAutoRun keyFn n coll, b.items ≠ [])
      ∧ (bucketAutoRun keyFn n coll).Pairwise
          (fun b c => ∀ x ∈ b.items, ∀ y ∈ c.items, keyFn x ≠ keyFn y) := by
  have hsz : 1 ≤ approxBucketSize coll.length n := le_max_left 1 _
  obtain ⟨hjoin, hlen, hne, hpw⟩ :=
    bucketLoop_spec keyFn coll hsz n (sortBy keyFn coll) hn
      (sorted_sortBy keyFn coll) (aligned_sortBy keyFn coll)
  unfold bucketAutoRun
  refine ⟨?_, ?_, ?_, ?_⟩
  · rw [chainMax_map_items]
    exact hjoin
  · rw [chainMax_length]
    exact hlen
  · intro b hb
    have hmem : b.items ∈ (bucketLoop keyFn coll (approxBucketSize coll.length n) n
        (sortBy keyFn coll)).map Prod.snd := by
      rw [← chainMax_map_items (lastKeyOf keyFn (sortBy keyFn coll))
        (bucketLoop keyFn coll (approxBucketSize coll.length n) n (sortBy keyFn coll))]
      exact List.mem_map_of_mem AutoBucket.items hb
    obtain ⟨p, hp, hpeq⟩ := List.mem_map.mp hmem
    rw [← hpeq]
    exact hne p hp
  · exact chainMax_pairwise_items
      (R := fun u v => ∀ x ∈ u, ∀ y ∈ v, keyFn x ≠ keyFn y) _ _ hpw

/-! ### Claim theorems -/

/-- C1: for every input collection and `$bucketAuto` spec accepted with
`buckets = N`, the stage emits at most `N` buckets, and the concatenation of
the buckets' accumulated item lists is a permutation of the input — every
input document appears in exactly one bucket's accumulated output, none is
dropped and none is counted twice. -/
theorem bucketAuto_partition (keyFn : α → Option K) (N : Int) (coll : List α)
    (bs : List (AutoBucket α K)) (hok : bucketAuto keyFn N coll = Except.ok bs) :
    bs.length ≤ N.toNat ∧ List.Perm ((bs.map AutoBucket.items).flatten) coll := by
  obtain ⟨hN, rfl⟩ := bucketAuto_ok_inv hok
  obtain ⟨hjoin, hlen, -, -⟩ := bucketAutoRun_spec keyFn N.toNat coll (by omega)
  exact ⟨hlen, hjoin ▸ perm_sortBy keyFn coll⟩

theorem bucketAuto_partition_witness :
    ([⟨some 1, some 3, [1, 2]⟩, ⟨some 3, some 5, [3, 4]⟩,
        ⟨some 5, some 6, [5, 6]⟩] : List (AutoBucket Nat Nat)).length ≤ (3 : Int).toNat
      ∧ List.Perm ((([⟨some 1, some 3, [1, 2]⟩, ⟨some 3, some 5, [3, 4]⟩,
          ⟨some 5, some 6, [5, 6]⟩] : List (AutoBucket Nat Nat)).map
            AutoBucket.items).flatten) [1, 2, 3, 4, 5, 6] :=
  bucketAuto_partition (fun n : Nat => some n) 3 [1, 2, 3, 4, 5, 6] _ rfl

/-- C3: the emitted buckets' boundaries chain — each bucket's `max` is the
next bucket's `min` — and the final bucket's `max` is the greatest groupBy
key observed in the input (a key of some input document dominating every
input document's key under the nil-lowest order `keyLE`). -/
theorem bucketAuto_boundaries (keyFn : α → Option K) (N : Int) (coll : List α)
    (bs : List (AutoBucket α K)) (hok : bucketAuto keyFn N coll = Except.ok bs) :
    List.Chain' (fun b c => c.min = b.max) bs
      ∧ ∀ b ∈ bs.getLast?,
          b.max ∈ coll.map keyFn ∧ ∀ x ∈ coll, keyLE (keyFn x) b.max := by
  obtain ⟨hN, rfl⟩ := bucketAuto_ok_inv hok
  constructor
  · exact chainMax_chain _ _
  · intro b hb
    cases hcoll : coll with
    | nil =>
      rw [hcoll, bucketAutoRun_nil] at hb
      simp at hb
    | cons c0 cr =>
      have hmax : b.max = lastKeyOf keyFn (sortBy keyFn coll) :=
        chainMax_getLast_max _ _ b hb
      have hspec := lastKeyOf_spec keyFn coll (by rw [hcoll]; exact List.cons_ne_nil c0 cr)
      rw [hmax, ← hcoll]
      exact hspec

theorem bucketAuto_boundaries_witness :
    List.Chain' (fun b c : AutoBucket Nat Nat => c.min = b.max)
        [⟨some 1, some 3, [1, 2]⟩, ⟨some 3, some 5, [3, 4]⟩, ⟨some 5, some 6, [5, 6]⟩]
      ∧ (⟨some 5, some 6, [5, 6]⟩ : AutoBucket Nat Nat).max
          ∈ ([1, 2, 3, 4, 5, 6] : List Nat).map (fun n => some n)
      ∧ keyLE (some 4) (⟨some 5, some 6, [5, 6]⟩ : AutoBucket Nat Nat).max := by
  have h := bucketAuto_boundaries (fun n : Nat => some n) 3 [1, 2, 3, 4, 5, 6] _ rfl
  exact ⟨h.1, (h.2 _ rfl).1, (h.2 _ rfl).2 4 (by decide)⟩

/-- C4: equal groupBy keys never span two buckets — distinct emitted buckets
hold documents with pairwise distinct keys, so two documents with equal keys
always land in the same bucket. -/
theorem bucketAuto_equal_keys (keyFn : α → Option K) (N : Int) (coll : List α)
    (bs : List (AutoBucket α K)) (hok : bucketAuto keyFn N coll = Except.ok bs) :
    bs.Pairwise (fun b c => ∀ x ∈ b.items, ∀ y ∈ c.items, keyFn x ≠ keyFn y) := by
  obtain ⟨hN, rfl⟩ := bucketAuto_ok_inv hok
  exact (bucketAutoRun_spec keyFn N.toNat coll (by omega)).2.2.2

theorem bucketAuto_equal_keys_witness :
    ([⟨some 1, some 3, [(1, 0), (1, 1), (2, 0), (2, 1)]⟩,
        ⟨some 3, some 3, [(3, 0), (3, 1)]⟩] : List (AutoBucket (Nat × Nat) Nat)).Pairwise
      (fun b c => ∀ x ∈ b.items, ∀ y ∈ c.items,
        (fun d : Nat × Nat => some d.1) x ≠ (fun d : Nat × Nat => some d.1) y) :=
  bucketAuto_equal_keys (fun d : Nat × Nat => some d.1) 3
    [(1, 0), (1, 1), (2, 0), (2, 1), (3, 0), (3, 1)] _ rfl

/-- C10: every emitted bucket holds at least one input document: the
approximate bucket size is clamped to at least 1 and a bucket is only opened
while unconsumed sorted documents remain, so no empty bucket is produced even
when the requested count exceeds the collection size. -/
theorem bucketAuto_no_empty_bucket (keyFn : α → Option K) (N : Int) (coll : List α)
    (bs : List (AutoBucket α K)) (hok : bucketAuto keyFn N coll = Except.ok bs) :
    ∀ b ∈ bs, b.items ≠ [] := by
  obtain ⟨hN, rfl⟩ := bucketAuto_ok_inv hok
  exact (bucketAutoRun_spec keyFn N.toNat coll (by omega)).2.2.1

theorem bucketAuto_no_empty_bucket_witness :
    (⟨some 1, some 2, [1]⟩ : AutoBucket Nat Nat).items ≠ []
      ∧ (⟨some 2, some 2, [2]⟩ : AutoBucket Nat Nat).items ≠ [] :=
  ⟨bucketAuto_no_empty_bucket (fun n : Nat => some n) 5 [1, 2] _ rfl _ (by decide),
   bucketAuto_no_empty_bucket (fun n : Nat => some n) 5 [1, 2] _ rfl _ (by decide)⟩

/-- C9: on the empty input collection, `$bucketAuto` with any valid spec
(`buckets > 0`) emits the empty sequence and raises no error: the bucket loop
never runs and the final boundary fix-up is guarded on a nonempty result. -/
theorem bucketAuto_empty_input (keyFn : α → Option K) (N : Int) (hN : 0 < N) :
    bucketAuto keyFn N ([] : List α) = Except.ok [] := by
  unfold bucketAuto
  rw [if_pos hN, bucketAutoRun_nil]

theorem bucketAuto_empty_input_witness :
    bucketAuto (fun n : Nat => some n) 3 ([] : List Nat) = Except.ok [] :=
  bucketAuto_empty_input (fun n : Nat => some n) 3 (by decide)

/-- C6: `$bucketAuto` raises the malformed-spec error — with the source's
message text — exactly when the `buckets` field is not a positive number, and
in that case no buckets are produced (the result is the error, not an `ok`). -/
theorem bucketAuto_invalid_count (keyFn : α → Option K) (N : Int) (coll : List α) :
    (∃ e, bucketAuto keyFn N coll = Except.error e) ↔ N ≤ 0 := by
  constructor
  · rintro ⟨e, he⟩
    by_contra h
    unfold bucketAuto at he
    rw [if_pos (by omega)] at he
    simp at he
  · intro h
    refine ⟨"The $bucketAuto 'buckets' field must be greater than 0, but found: "
      ++ toString N, ?_⟩
    unfold bucketAuto
    rw [if_neg (by omega)]

/-- C7: the six documents `{_id: 1} .. {_id: 6}` bucketed with
`groupBy: "$_id"`, `buckets: 3` yield exactly three buckets whose `min`/`max`
boundaries chain `1 → 3 → 5 → 6`, and whose default `count` accumulators sum
to 6. -/
theorem bucketAuto_chain_scenario :
    bucketAuto (fun n : Nat => some n) 3 [1, 2, 3, 4, 5, 6]
      = Except.ok [⟨some 1, some 3, [1, 2]⟩, ⟨some 3, some 5, [3, 4]⟩,
          ⟨some 5, some 6, [5, 6]⟩]
      ∧ (([⟨some 1, some 3, [1, 2]⟩, ⟨some 3, some 5, [3, 4]⟩,
          ⟨some 5, some 6, [5, 6]⟩] : List (AutoBucket Nat Nat)).map defaultCount).sum
        = 6 :=
  ⟨rfl, rfl⟩

/-! ### C2: the shape of the chunking -/

/-- `ceil(m / n)`, the run length claim C2 attributes to the stage. -/
def ceilDiv (m n : Nat) : Nat :=
  (m + n - 1) / n

/-- The chunking described by claim C2's words: cut the sorted sequence into
runs of `sz` documents each, at most `fuel` runs.  On inputs whose keys are
pairwise distinct, the spec's "extend each chunk to include all documents
sharing the boundary key" clause never applies, so on such inputs this is
exactly the bucket contents the claim describes. -/
def chunksOf (sz : Nat) : Nat → List α → List (List α)
  | 0, _ => []
  | _ + 1, [] => []
  | f + 1, a :: rest => (a :: rest).take sz :: chunksOf sz f ((a :: rest).drop sz)

/-- The chunking the code actually performs: each bucket takes up to
`sz` whole maximal equal-key groups from the front of the sorted sequence
(counting groups, not documents), and the last of the `fuel` chunks absorbs
the remainder. -/
def groupChunks (keyFn : α → Option K) (sz : Nat) : Nat → List α → List (List α)
  | 0, _ => []
  | _ + 1, [] => []
  | f + 1, a :: rest =>
    let tg := takeGroups keyFn sz (a :: rest)
    if f = 0 then [tg.1 ++ tg.2]
    else tg.1 :: groupChunks keyFn sz f tg.2

theorem bucketLoop_snd_eq_groupChunks (keyFn : α → Option K) (coll : List α) (sz : Nat) :
    ∀ (fuel : Nat) (rest : List α), rest.Pairwise (docLE keyFn) →
      Aligned keyFn coll rest →
      (bucketLoop keyFn coll sz fuel rest).map Prod.snd = groupChunks keyFn sz fuel rest
  | 0, _, _, _ => rfl
  | _ + 1, [], _, _ => rfl
  | 1, a :: t, hpw, ha => by
    have hfb := fillBucket_eq_takeGroups keyFn coll sz (a :: t) hpw ha
    show [(fillBucket keyFn coll sz (a :: t)).1 ++ (fillBucket keyFn coll sz (a :: t)).2]
        = [(takeGroups keyFn sz (a :: t)).1 ++ (takeGroups keyFn sz (a :: t)).2]
    rw [hfb]
  | f + 2, a :: t, hpw, ha => by
    have hfb := fillBucket_eq_takeGroups keyFn coll sz (a :: t) hpw ha
    have hinv := takeGroups_snd_invariant keyFn coll sz (a :: t) hpw ha
    have ih := bucketLoop_snd_eq_groupChunks keyFn coll sz (f + 1)
      (takeGroups keyFn sz (a :: t)).2 hinv.1 hinv.2
    show (fillBucket keyFn coll sz (a :: t)).1
        :: (bucketLoop keyFn coll sz (f + 1)
              (fillBucket keyFn coll sz (a :: t)).2).map Prod.snd
      = (takeGroups keyFn sz (a :: t)).1
        :: groupChunks keyFn sz (f + 1) (takeGroups keyFn sz (a :: t)).2
    rw [hfb, ih]

/-- C2, counterexample: on `{_id: 1} .. {_id: 7}` with `buckets = 3` (keys
pairwise distinct, so the boundary-extension clause is vacuous) the stage's
buckets hold `[[1,2],[3,4],[5,6,7]]`, while chunking the sorted sequence into
runs of `ceil(7/3) = 3` documents as the claim states would give
`[[1,2,3],[4,5,6],[7]]`.  The code sizes chunks by
`max(1, round(size/N)) = 2` groups, not `ceil(size/N)` documents. -/
theorem bucketAuto_ceil_chunks_cex :
    (bucketAuto (fun n : Nat => some n) 3 [1, 2, 3, 4, 5, 6, 7]).map
        (List.map AutoBucket.items)
      = Except.ok [[1, 2], [3, 4], [5, 6, 7]]
    ∧ chunksOf (ceilDiv 7 3) 3 (sortBy (fun n : Nat => some n) [1, 2, 3, 4, 5, 6, 7])
      = [[1, 2, 3], [4, 5, 6], [7]]
    ∧ ([[1, 2], [3, 4], [5, 6, 7]] : List (List Nat)) ≠ [[1, 2, 3], [4, 5, 6], [7]] :=
  ⟨rfl, rfl, by decide⟩

/-- C2, amended: `$bucketAuto` derives its buckets by sorting the input on
the groupBy expression and chunking the sorted sequence into runs of
`max(1, round(size/N))` whole equal-key groups each (the inner loop counts
group insertions, not documents, and uses `Math.round`, not `ceil`); the
`N`-th chunk, when reached, absorbs the remainder. -/
theorem bucketAuto_group_chunks (keyFn : α → Option K) (N : Int) (coll : List α)
    (bs : List (AutoBucket α K)) (hok : bucketAuto keyFn N coll = Except.ok bs) :
    bs.map AutoBucket.items
      = groupChunks keyFn (approxBucketSize coll.length N.toNat) N.toNat
          (sortBy keyFn coll) := by
  obtain ⟨hN, rfl⟩ := bucketAuto_ok_inv hok
  unfold bucketAutoRun
  rw [chainMax_map_items]
  exact bucketLoop_snd_eq_groupChunks keyFn coll _ N.toNat (sortBy keyFn coll)
    (sorted_sortBy keyFn coll) (aligned_sortBy keyFn coll)

theorem bucketAuto_group_chunks_witness :
    ([⟨some 1, some 3, [1, 2]⟩, ⟨some 3, some 5, [3, 4]⟩,
        ⟨some 5, some 7, [5, 6, 7]⟩] : List (AutoBucket Nat Nat)).map AutoBucket.items
      = groupChunks (fun n : Nat => some n) (approxBucketSize 7 (3 : Int).toNat)
          (3 : Int).toNat (sortBy (fun n : Nat => some n) [1, 2, 3, 4, 5, 6, 7]) :=
  bucketAuto_group_chunks (fun n : Nat => some n) 3 [1, 2, 3, 4, 5, 6, 7] _ rfl

/-! ### C5: nil keys and the first bucket -/

/-- First step of the bucket loop when the head of the sorted cursor has a
nil key: the first emitted bucket's items start with the whole `remaining`
array (all nil-key documents of the collection). -/
theorem bucketLoop_head_nil_key (keyFn : α → Option K) (coll : List α)
    {sz fuel : Nat} (hsz : 1 ≤ sz) (hfuel : 1 ≤ fuel) (a : α) (t : List α)
    (hka : keyFn a = none) :
    ∃ s' tail, bucketLoop keyFn coll sz fuel (a :: t)
      = (keyFn a, remaining keyFn coll ++ s') :: tail := by
  obtain ⟨j, rfl⟩ : ∃ j, sz = j + 1 := ⟨sz - 1, by omega⟩
  obtain ⟨f, rfl⟩ : ∃ f, fuel = f + 1 := ⟨fuel - 1, by omega⟩
  have hfil : fillBucket keyFn coll (j + 1) (a :: t)
      = (remaining keyFn coll
            ++ (fillBucket keyFn coll j
                ((a :: t).drop (remaining keyFn coll).length)).1,
         (fillBucket keyFn coll j
            ((a :: t).drop (remaining keyFn coll).length)).2) := by
    rw [fillBucket_cons]
    simp only [hka, remaining]
  cases f with
  | zero =>
    refine ⟨(fillBucket keyFn coll j
          ((a :: t).drop (remaining keyFn coll).length)).1
        ++ (fillBucket keyFn coll j
          ((a :: t).drop (remaining keyFn coll).length)).2, [], ?_⟩
    show [(keyFn a, (fillBucket keyFn coll (j + 1) (a :: t)).1
        ++ (fillBucket keyFn coll (j + 1) (a :: t)).2)] = _
    rw [hfil, List.append_assoc]
  | succ f' =>
    refine ⟨(fillBucket keyFn coll j
          ((a :: t).drop (remaining keyFn coll).length)).1,
        bucketLoop keyFn coll (j + 1) (f' + 1)
          (fillBucket keyFn coll (j + 1) (a :: t)).2, ?_⟩
    show (keyFn a, (fillBucket keyFn coll (j + 1) (a :: t)).1)
        :: bucketLoop keyFn coll (j + 1) (f' + 1)
            (fillBucket keyFn coll (j + 1) (a :: t)).2 = _
    rw [hfil]

/-- C5, counterexample: over the documents with keys
`[none, none, some 1, some 1]` and `buckets = 2` the stage emits a single
bucket holding all four documents — the bucket holding the nil-key documents
also holds documents with non-nil keys, so nil keys do not get a bucket of
their own. -/
theorem bucketAuto_nil_own_bucket_cex :
    bucketAuto (fun x : Option Nat => x) 2 [none, none, some 1, some 1]
      = Except.ok [⟨none, some 1, [none, none, some 1, some 1]⟩]
    ∧ (none : Option Nat) ∈ ([none, none, some 1, some 1] : List (Option Nat))
    ∧ (some 1 : Option Nat) ∈ ([none, none, some 1, some 1] : List (Option Nat)) :=
  ⟨rfl, by decide, by decide⟩

/-- C5, amended: all nil-key documents are placed together in the first
emitted bucket (never split, never in a later bucket), which sits at the low
end; but that first bucket may additionally hold documents with non-nil keys
when the approximate bucket size admits further groups. -/
theorem bucketAuto_nil_lowest (keyFn : α → Option K) (N : Int) (coll : List α)
    (bs : List (AutoBucket α K)) (hok : bucketAuto keyFn N coll = Except.ok bs)
    (z : α) (hz : z ∈ coll) (hkz : keyFn z = none) :
    ∃ b₀ tail, bs = b₀ :: tail
      ∧ (∀ x ∈ coll, keyFn x = none → x ∈ b₀.items)
      ∧ ∀ b ∈ tail, ∀ x ∈ b.items, keyFn x ≠ none := by
  obtain ⟨hN, rfl⟩ := bucketAuto_ok_inv hok
  have hzs : z ∈ sortBy keyFn coll := (perm_sortBy keyFn coll).mem_iff.mpr hz
  obtain ⟨a, t, hst⟩ : ∃ a t, sortBy keyFn coll = a :: t := by
    cases hs : sortBy keyFn coll with
    | nil => rw [hs] at hzs; simp at hzs
    | cons a t => exact ⟨a, t, rfl⟩
  have hka : keyFn a = none := by
    have hpw := sorted_sortBy keyFn coll
    rw [hst] at hpw hzs
    rcases List.mem_cons.mp hzs with rfl | hzt
    · exact hkz
    · have hrel := List.rel_of_pairwise_cons hpw hzt
      rw [docLE, hkz] at hrel
      cases hfa : keyFn a with
      | none => rfl
      | some k => rw [hfa] at hrel; exact absurd hrel (fun h => h)
  have hsz : 1 ≤ approxBucketSize coll.length N.toNat := le_max_left 1 _
  have hfuel : 1 ≤ N.toNat := by omega
  obtain ⟨s', btail, hbl⟩ := bucketLoop_head_nil_key keyFn coll hsz hfuel a t hka
  have hbl' : bucketLoop keyFn coll (approxBucketSize coll.length N.toNat) N.toNat
      (sortBy keyFn coll) = (keyFn a, remaining keyFn coll ++ s') :: btail := by
    rw [hst]
    exact hbl
  have hpw0 : (a :: t).Pairwise (docLE keyFn) := by
    rw [← hst]
    exact sorted_sortBy keyFn coll
  have ha0 : Aligned keyFn coll (a :: t) := by
    rw [← hst]
    exact aligned_sortBy keyFn coll
  obtain ⟨-, -, -, hpair⟩ := bucketLoop_spec keyFn coll hsz N.toNat (a :: t) hfuel hpw0 ha0
  rw [hbl] at hpair
  obtain ⟨hhead, -⟩ := List.pairwise_cons.mp hpair
  obtain ⟨b₀, hchain, hitems, -⟩ :=
    chainMax_cons (lastKeyOf keyFn (sortBy keyFn coll))
      (keyFn a, remaining keyFn coll ++ s') btail
  refine ⟨b₀, chainMax (lastKeyOf keyFn (sortBy keyFn coll)) btail, ?_, ?_, ?_⟩
  · unfold bucketAutoRun
    rw [hbl', hchain]
  · intro x hx hkx
    rw [hitems]
    exact List.mem_append_left s' (List.mem_filter.mpr ⟨hx, decide_eq_true hkx⟩)
  · intro b hb x hxb hkx
    have hbitems : b.items ∈ btail.map Prod.snd := by
      rw [← chainMax_map_items (lastKeyOf keyFn (sortBy keyFn coll)) btail]
      exact List.mem_map_of_mem AutoBucket.items hb
    obtain ⟨q, hq, hqeq⟩ := List.mem_map.mp hbitems
    have hzrem : z ∈ remaining keyFn coll ++ s' :=
      List.mem_append_left s' (List.mem_filter.mpr ⟨hz, decide_eq_true hkz⟩)
    have hne := hhead q hq z hzrem x (by rw [hqeq]; exact hxb)
    exact hne (by rw [hkz, hkx])

theorem bucketAuto_nil_lowest_witness :
    (none : Option Nat) ∈ (⟨none, some 1, [none, none, some 1, some 1]⟩
      : AutoBucket (Option Nat) Nat).items := by
  obtain ⟨b₀, tail, heq, hmem, -⟩ :=
    bucketAuto_nil_lowest (fun x : Option Nat => x) 2 [none, none, some 1, some 1] _ rfl
      none (by decide) rfl
  injection heq with h1 h2
  have hx := hmem none (by decide) rfl
  rwa [← h1] at hx

/-! ### C8: `$sort` stability -/

/-- Modelled from the spec: the `$sort` stage implementation is not among the
sources (only its test file is).  Per §4.4/§5 of the spec, `$sort` is a
blocking stage performing a stable sort by the compound sort key under the
collation-aware total preorder; the order induced by the sort spec and
collation is abstracted as the relation `r`, and the stage is a stable sort
by `r`. -/
def sortStage (r : α → α → Prop) [DecidableRel r] (coll : List α) : List α :=
  List.insertionSort r coll

/-- Modelled from the spec: an English strength-1 collation compares strings
by base character only, ignoring case (and diacritics).  For the
single-letter names of the spec's scenario this is comparison of lowercased
characters. -/
def strength1LE (a b : Char) : Prop :=
  a.toLower ≤ b.toLower

instance : DecidableRel strength1LE := fun a b =>
  inferInstanceAs (Decidable (a.toLower ≤ b.toLower))

instance : IsTotal Char strength1LE :=
  ⟨fun a b => le_total a.toLower b.toLower⟩

instance : IsTrans Char strength1LE :=
  ⟨fun _ _ _ h₁ h₂ => le_trans h₁ h₂⟩

/-- C8: `$sort` is stable — for every sort-key order `r` (total and
transitive, as induced by a sort spec and collation) and every class of
documents whose keys compare equal under `r` (described by a predicate `p`
on which `r` holds pairwise, e.g. case-equivalent strings under a strength-1
collation), the documents of that class appear in the output in the same
relative order as in the input. -/
theorem sortStage_stable (r : α → α → Prop) [DecidableRel r] [IsTotal α r]
    [IsTrans α r] (p : α → Bool) (hp : ∀ x y, p x = true → p y = true → r x y)
    (l : List α) : (sortStage r l).filter p = l.filter p :=
  filter_insertionSort_class r p hp l

theorem sortStage_stable_witness :
    sortStage strength1LE ['A', 'a', 'B', 'b'] = ['A', 'a', 'B', 'b']
      ∧ (sortStage strength1LE ['A', 'a', 'B', 'b']).filter
          (fun c => c.toLower = 'a')
        = (['A', 'a', 'B', 'b'] : List Char).filter (fun c => c.toLower = 'a') :=
  ⟨by decide,
    sortStage_stable strength1LE (fun c => c.toLower = 'a')
      (fun x y hx hy => by
        have hx' : x.toLower = 'a' := of_decide_eq_true hx
        have hy' : y.toLower = 'a' := of_decide_eq_true hy
        show x.toLower ≤ y.toLower
        rw [hx', hy'])
      ['A', 'a', 'B', 'b']⟩

end Mingo
